import Mathlib

/-!
Verification development for the Text Twist word game
(source: src/Text_Twist.py).

The solver `get_possible_words` and the gameplay state machine of
`main_game` are shallowly embedded: words are lists of characters,
Python sets are lists considered up to membership, and the
per-frame main loop is a step function over an explicit state record.
-/

namespace TextTwist

/-- Words are lists of characters (Python strings, lowercased). -/
abbrev Word := List Char

/-! ## WordSolver: `get_possible_words` (src/Text_Twist.py lines 70-82) -/

/-- All ways to pick one element of a list together with the remaining
list (positions kept in order).  This is the selection step underlying
`itertools.permutations`. -/
def picks {α : Type} : List α → List (α × List α)
  | [] => []
  | x :: xs => (x, xs) :: (picks xs).map (fun p => (p.1, x :: p.2))

/-- `kperms n l` enumerates the length-`n` permutations of elements of `l`
drawn at distinct positions, the semantics of `itertools.permutations(l, n)`
(up to order and multiplicity of the enumeration, which the Python code
immediately collapses into a set). -/
def kperms {α : Type} : Nat → List α → List (List α)
  | 0, _ => [[]]
  | n + 1, l => (picks l).flatMap (fun p => (kperms n p.2).map (fun w => p.1 :: w))

/-- The candidate strings enumerated by the solver loop
`for i in range(3, len(letters) + 1): for perm in permutations(letters, i)`. -/
def allCandidates (letters : List Char) : List Word :=
  (List.range' 3 (letters.length + 1 - 3)).flatMap (fun i => kperms i letters)

/-- Lexicographic comparison of equal-or-unequal-length character lists
by code point, matching Python string comparison. -/
def lexLe : List Char → List Char → Bool
  | [], _ => true
  | _ :: _, [] => false
  | a :: as, b :: bs =>
    if a.toNat < b.toNat then true
    else if b.toNat < a.toNat then false
    else lexLe as bs

/-- The sort key used by the solver: Python tuple order on
`(len(w), w)` — ascending length, then lexicographic. -/
def keyLe (a b : Word) : Prop :=
  a.length < b.length ∨ (a.length = b.length ∧ lexLe a b = true)

instance : DecidableRel keyLe := fun a b => by
  unfold keyLe; infer_instance

/-- The multiset-inclusion predicate of the specification:
every character occurs in `a` at most as often as in `b`. -/
def msubset (a b : List Char) : Prop := ∀ c : Char, a.count c ≤ b.count c

instance (a b : List Char) : Decidable (msubset a b) :=
  decidable_of_iff (∀ c ∈ a, a.count c ≤ b.count c) (by
    constructor
    · intro h c
      by_cases hc : c ∈ a
      · exact h c hc
      · simp [List.count_eq_zero.mpr hc]
    · intro h c _
      exact h c)

/-- Embedding of `get_possible_words(letters, valid_words, main_word)`:
collect every permutation of length 3..len(letters) that is in the
dictionary, add the main word, and return the set sorted ascending by
`(len(w), w)`.  The Python set is modelled by `dedup`, and `sorted` with
that key by insertion sort over `keyLe` (any correct sort of a
duplicate-free list by this total order yields the same list). -/
def get_possible_words (letters : List Char) (valid_words : List Word)
    (main_word : Word) : List Word :=
  List.insertionSort keyLe
    ((main_word :: (allCandidates letters).filter
        (fun w => decide (w ∈ valid_words))).dedup)

/-! ### Solver helper lemmas -/

theorem count_cons_ite {α : Type} [DecidableEq α] (c y : α) (l : List α) :
    List.count c (y :: l) = List.count c l + (if c = y then 1 else 0) := by
  rw [List.count_cons]
  rcases eq_or_ne c y with rfl | h
  · simp
  · simp [beq_iff_eq, h, Ne.symm h]

theorem picks_mem_count {α : Type} [DecidableEq α] {l : List α} {y : α}
    {rest : List α} (h : (y, rest) ∈ picks l) :
    ∀ c : α, l.count c = rest.count c + (if c = y then 1 else 0) := by
  induction l generalizing rest with
  | nil => simp [picks] at h
  | cons x xs ih =>
    simp only [picks, List.mem_cons, List.mem_map] at h
    rcases h with h | ⟨p, hp, hpe⟩
    · injection h with h1 h2
      subst h1; subst h2
      intro c
      rw [count_cons_ite]
    · injection hpe with h1 h2
      subst h1; subst h2
      intro c
      rw [count_cons_ite, count_cons_ite,
        ih (show (p.1, p.2) ∈ picks xs from hp) c]
      omega

theorem picks_mem_of_mem {α : Type} [DecidableEq α] {l : List α} {y : α}
    (h : y ∈ l) :
    ∃ rest, (y, rest) ∈ picks l ∧
      ∀ c : α, l.count c = rest.count c + (if c = y then 1 else 0) := by
  induction l with
  | nil => simp at h
  | cons x xs ih =>
    rcases eq_or_ne y x with rfl | hxy
    · exact ⟨xs, by simp [picks], fun c => count_cons_ite c y xs⟩
    · have hmem : y ∈ xs := by
        rcases List.mem_cons.mp h with h1 | h1
        · exact absurd h1 hxy
        · exact h1
      obtain ⟨rest, hrest, hcount⟩ := ih hmem
      refine ⟨x :: rest, ?_, ?_⟩
      · simp only [picks, List.mem_cons, List.mem_map]
        exact Or.inr ⟨(y, rest), hrest, rfl⟩
      · intro c
        rw [count_cons_ite, count_cons_ite, hcount c]
        omega

theorem kperms_mem {α : Type} [DecidableEq α] :
    ∀ (n : Nat) (l : List α) (w : List α),
      w ∈ kperms n l ↔ w.length = n ∧ ∀ c : α, w.count c ≤ l.count c := by
  intro n
  induction n with
  | zero =>
    intro l w
    simp only [kperms, List.mem_singleton]
    constructor
    · rintro rfl; simp
    · rintro ⟨hl, -⟩
      exact List.length_eq_zero.mp hl
  | succ n ih =>
    intro l w
    simp only [kperms, List.mem_flatMap, List.mem_map]
    constructor
    · rintro ⟨p, hp, w0, hw0, rfl⟩
      obtain ⟨hlen, hcount⟩ := (ih p.2 w0).mp hw0
      have hpc := picks_mem_count (show (p.1, p.2) ∈ picks l from hp)
      refine ⟨by simp [hlen], ?_⟩
      intro c
      rw [count_cons_ite, hpc c]
      exact Nat.add_le_add_right (hcount c) _
    · rintro ⟨hlen, hcount⟩
      cases w with
      | nil => simp at hlen
      | cons x w0 =>
        have hx : x ∈ l := by
          have h1 : 0 < (x :: w0).count x := by
            rw [count_cons_ite]; simp
          exact List.count_pos_iff.mp (lt_of_lt_of_le h1 (hcount x))
        obtain ⟨rest, hrest, hrc⟩ := picks_mem_of_mem hx
        have hw0 : w0 ∈ kperms n rest := by
          refine (ih rest w0).mpr
            ⟨by simp only [List.length_cons] at hlen; omega, ?_⟩
          intro c
          have h1 := hcount c
          rw [hrc c, count_cons_ite] at h1
          omega
        exact ⟨(x, rest), hrest, w0, hw0, rfl⟩

theorem mem_allCandidates {letters : List Char} {w : Word} :
    w ∈ allCandidates letters ↔
      3 ≤ w.length ∧ w.length ≤ letters.length ∧ msubset w letters := by
  unfold allCandidates msubset
  simp only [List.mem_flatMap, List.mem_range']
  constructor
  · rintro ⟨i, ⟨j, hj, rfl⟩, hw⟩
    obtain ⟨hlen, hcount⟩ := (kperms_mem _ _ _).mp hw
    refine ⟨by omega, by omega, hcount⟩
  · rintro ⟨h3, hle, hcount⟩
    refine ⟨w.length, ⟨w.length - 3, by omega, by omega⟩, ?_⟩
    exact (kperms_mem _ _ _).mpr ⟨rfl, hcount⟩

theorem mem_get_possible_words {letters : List Char} {D : List Word}
    {s : Word} {w : Word} :
    w ∈ get_possible_words letters D s ↔
      (w ∈ D ∧ 3 ≤ w.length ∧ w.length ≤ letters.length ∧ msubset w letters)
      ∨ w = s := by
  unfold get_possible_words
  rw [(List.perm_insertionSort keyLe _).mem_iff, List.mem_dedup,
    List.mem_cons]
  simp only [List.mem_filter, decide_eq_true_eq, mem_allCandidates]
  tauto

/-! ## Session state machine (src/Text_Twist.py, `main_game`)

The mutable locals of `main_game` that constitute game state
(`found_words`, `bonus_found`, `score`, `timer_seconds`, `game_over`,
and the display order of `letter_buttons`) become a state record; the
immutable data computed at construction (`valid_words`,
`possible_words`) becomes a context record.  One iteration of the
frame loop is: timer update (lines 312-321), queued event handling
(lines 459-650), completion check (lines 652-659), and the terminal
test `if game_over or timer_seconds <= 0` (line 662) which ends the
session. -/

/-- The classification of a submitted guess, per the spec's names for
the five outcome branches of the submit handler. -/
inductive Classification where
  | Empty
  | AlreadyFound
  | Correct
  | Bonus
  | Invalid
deriving DecidableEq, Repr

/-- Immutable per-game data: the dictionary `valid_words` and the
solver output `possible_words`. -/
structure GameCtx where
  valid : List Word
  possible : List Word
deriving DecidableEq, Repr

/-- The mutable game state of `main_game`. -/
structure GameState where
  found : List Word
  bonus : List Word
  score : Nat
  timer : Int
  gameOver : Bool
  buttons : List Char
deriving DecidableEq, Repr

/-- Initial state (lines 248-260): empty found/bonus sets, score 0,
`timer_seconds = max(10, len(possible_words) * 9)`, game not over, and
the shuffled letters as button order. -/
def initState (ctx : GameCtx) (letters : List Char) : GameState :=
  { found := []
    bonus := []
    score := 0
    timer := max 10 ((ctx.possible.length : Int) * 9)
    gameOver := false
    buttons := letters }

/-- The submit handler (lines 576-632; the ENTER-key handler at lines
479-541 is the same logic): empty guess, already-found check over both
sets, the bonus-dictionary branch, the possible-word branch, else
invalid.  Returns the updated state and the classification. -/
def applyGuess (ctx : GameCtx) (st : GameState) (g : Word) :
    GameState × Classification :=
  if g = [] then (st, .Empty)
  else if g ∈ st.found ∨ g ∈ st.bonus then (st, .AlreadyFound)
  else if g ∈ ctx.valid ∧ g ∉ ctx.possible then
    ({ st with bonus := g :: st.bonus
               score := st.score + 5 * g.length
               timer := st.timer + (g.length : Int) }, .Bonus)
  else if g ∈ ctx.possible ∧ g ∉ st.found then
    ({ st with found := g :: st.found
               score := st.score + 10 * g.length
               timer := st.timer + 2 * (g.length : Int) }, .Correct)
  else (st, .Invalid)

/-- The game-state-relevant commands arriving through the event loop.
A shuffle carries the reordering that `random.shuffle(letter_buttons)`
produces (lines 641-646 and 552-557); it is accepted only if it really
is a permutation of the current buttons, which is all
`random.shuffle` can produce. -/
inductive GEvent where
  | guess (g : Word)
  | shuffle (newOrder : List Char)
deriving DecidableEq, Repr

/-- Apply one event to the state. -/
def applyEvent (ctx : GameCtx) (st : GameState) : GEvent → GameState
  | .guess g => (applyGuess ctx st g).1
  | .shuffle newOrder =>
      if newOrder.Perm st.buttons then { st with buttons := newOrder } else st

/-- `visible_required_words` (lines 289-299): the possible words grouped
by length, flattened in ascending length order (group contents keep
their order in `possible_words`). -/
def visible_required_words (possible : List Word) : List Word :=
  (List.insertionSort (· ≤ ·) (possible.map List.length).dedup).flatMap
    (fun l => possible.filter (fun w => decide (w.length = l)))

/-- The completion test `all(w in found_words for w in
visible_required_words)` (line 653). -/
def allFound (ctx : GameCtx) (st : GameState) : Bool :=
  (visible_required_words ctx.possible).all (fun w => decide (w ∈ st.found))

/-- The completion check after event processing (lines 652-659):
if every visible word has been found, award +100 and end the game. -/
def completionCheck (ctx : GameCtx) (st : GameState) : GameState :=
  if allFound ctx st then
    { st with score := st.score + 100, gameOver := true }
  else st

/-- The frame-top timer update (lines 312-321), taking the elapsed
milliseconds since the last whole-second tick: if at least one whole
second elapsed and the game is not over, subtract the whole seconds
and clamp at zero, ending the game on reaching zero. -/
def stepTimer (st : GameState) (elapsedMs : Nat) : GameState :=
  if 1000 ≤ elapsedMs then
    if st.gameOver then st
    else
      if st.timer - ((elapsedMs / 1000 : Nat) : Int) ≤ 0 then
        { st with timer := 0, gameOver := true }
      else { st with timer := st.timer - ((elapsedMs / 1000 : Nat) : Int) }
  else st

/-- One iteration of the main loop: elapsed time plus the events
handled in that frame. -/
structure Step where
  elapsedMs : Nat
  events : List GEvent
deriving DecidableEq, Repr

/-- Execute one loop iteration: timer update, then the queued events in
order, then the completion check. -/
def runStep (ctx : GameCtx) (st : GameState) (s : Step) : GameState :=
  completionCheck ctx (s.events.foldl (applyEvent ctx) (stepTimer st s.elapsedMs))

/-- Run the main loop over a schedule of iterations.  The loop body is
entered again only if the previous iteration did not end the game
(line 662: `if game_over or timer_seconds <= 0` leads to the game-over
screen and `return`). -/
def run (ctx : GameCtx) (st : GameState) : List Step → GameState
  | [] => st
  | s :: rest =>
      if st.gameOver = true ∨ st.timer ≤ 0 then st
      else run ctx (runStep ctx st s) rest

/-- The spec's session status, derived from the state at iteration
boundaries: the game is over either with every visible word found
(the completion branch, Complete) or not (timer expiry, Expired). -/
inductive Status where
  | Active
  | Complete
  | Expired
deriving DecidableEq, Repr

/-- Status of a state at an iteration boundary. -/
def status (ctx : GameCtx) (st : GameState) : Status :=
  if st.gameOver then
    (if allFound ctx st then .Complete else .Expired)
  else .Active

/-- Candidate seed selection (line 232): dictionary words of the chosen
length. -/
def candidatesOf (valid : List Word) (word_length : Nat) : List Word :=
  valid.filter (fun w => decide (w.length = word_length))

/-- Seed-pool construction with fallback (lines 232-237): words of the
chosen length, else 6-letter words, else the hard failure
`RuntimeError` (modelled as `none`). -/
def chooseCandidates (valid : List Word) (word_length : Nat) :
    Option (List Word) :=
  if candidatesOf valid word_length ≠ [] then
    some (candidatesOf valid word_length)
  else if candidatesOf valid 6 ≠ [] then some (candidatesOf valid 6)
  else none

/-! ## Concrete scenario data (spec scenarios A, B, E) -/

def eatW : Word := ['e', 'a', 't']
def ateW : Word := ['a', 't', 'e']
def teaW : Word := ['t', 'e', 'a']
def tanW : Word := ['t', 'a', 'n']
def dictA : List Word := [eatW, ateW, teaW, tanW]
def lettersA : List Char := ['e', 'a', 't']

/-- Scenario A context: seed `eat`, letters `{e,a,t}`,
dictionary `{eat, ate, tea, tan}`. -/
def ctxA : GameCtx :=
  { valid := dictA, possible := get_possible_words lettersA dictA eatW }

/-- Scenario A session start. -/
def sessionA : GameState := initState ctxA lettersA

/-! ## Ordering facts for the solver's sort key -/

theorem lexLe_total : ∀ a b : List Char, lexLe a b = true ∨ lexLe b a = true := by
  intro a
  induction a with
  | nil => intro b; left; rfl
  | cons x as ih =>
    intro b
    cases b with
    | nil => right; rfl
    | cons y bs =>
      by_cases h1 : x.toNat < y.toNat
      · left; simp [lexLe, h1]
      · by_cases h2 : y.toNat < x.toNat
        · right; simp [lexLe, h2]
        · rcases ih bs with h | h
          · left; simp [lexLe, h1, h2, h]
          · right; simp [lexLe, h1, h2, h]

theorem lexLe_trans :
    ∀ a b c : List Char,
      lexLe a b = true → lexLe b c = true → lexLe a c = true := by
  intro a
  induction a with
  | nil => intro b c _ _; rfl
  | cons x as ih =>
    intro b c hab hbc
    cases b with
    | nil => simp [lexLe] at hab
    | cons y bs =>
      cases c with
      | nil => simp [lexLe] at hbc
      | cons z cs =>
        simp only [lexLe] at hab hbc ⊢
        rcases Nat.lt_trichotomy x.toNat y.toNat with h1 | h1 | h1
        · rcases Nat.lt_trichotomy y.toNat z.toNat with h2 | h2 | h2
          · simp [show x.toNat < z.toNat from by omega]
          · simp [show x.toNat < z.toNat from by omega]
          · rw [if_neg (by omega), if_pos h2] at hbc
            exact absurd hbc (by simp)
        · rcases Nat.lt_trichotomy y.toNat z.toNat with h2 | h2 | h2
          · simp [show x.toNat < z.toNat from by omega]
          · rw [if_neg (by omega), if_neg (by omega)] at hab
            rw [if_neg (by omega), if_neg (by omega)] at hbc
            rw [if_neg (by omega), if_neg (by omega)]
            exact ih bs cs hab hbc
          · rw [if_neg (by omega), if_pos h2] at hbc
            exact absurd hbc (by simp)
        · rw [if_neg (by omega), if_pos h1] at hab
          exact absurd hab (by simp)

instance : IsTotal Word keyLe :=
  ⟨by
    intro a b
    rcases Nat.lt_trichotomy a.length b.length with h | h | h
    · exact Or.inl (Or.inl h)
    · rcases lexLe_total a b with hl | hl
      · exact Or.inl (Or.inr ⟨h, hl⟩)
      · exact Or.inr (Or.inr ⟨h.symm, hl⟩)
    · exact Or.inr (Or.inl h)⟩

instance : IsTrans Word keyLe :=
  ⟨by
    intro a b c hab hbc
    rcases hab with h1 | ⟨h1, hl1⟩ <;> rcases hbc with h2 | ⟨h2, hl2⟩
    · exact Or.inl (lt_trans h1 h2)
    · exact Or.inl (by omega)
    · exact Or.inl (by omega)
    · exact Or.inr ⟨h1.trans h2, lexLe_trans a b c hl1 hl2⟩⟩

theorem get_possible_words_nodup (letters : List Char) (D : List Word)
    (s : Word) : (get_possible_words letters D s).Nodup := by
  unfold get_possible_words
  exact (List.perm_insertionSort keyLe _).symm.nodup (List.nodup_dedup _)

theorem get_possible_words_sorted (letters : List Char) (D : List Word)
    (s : Word) : (get_possible_words letters D s).Sorted keyLe :=
  List.sorted_insertionSort keyLe _

/-! ## Session helper lemmas -/

theorem mem_visible {possible : List Word} {w : Word} :
    w ∈ visible_required_words possible ↔ w ∈ possible := by
  unfold visible_required_words
  simp only [List.mem_flatMap, List.mem_filter, decide_eq_true_eq]
  constructor
  · rintro ⟨l, _, hw, _⟩; exact hw
  · intro hw
    refine ⟨w.length, ?_, hw, rfl⟩
    rw [(List.perm_insertionSort _ _).mem_iff, List.mem_dedup]
    exact List.mem_map_of_mem List.length hw

theorem allFound_iff {ctx : GameCtx} {st : GameState} :
    allFound ctx st = true ↔ ∀ w ∈ ctx.possible, w ∈ st.found := by
  unfold allFound
  rw [List.all_eq_true]
  constructor
  · intro h w hw
    simpa using h w (mem_visible.mpr hw)
  · intro h w hw
    simpa using h w (mem_visible.mp hw)

theorem applyGuess_gameOver (ctx : GameCtx) (st : GameState) (g : Word) :
    (applyGuess ctx st g).1.gameOver = st.gameOver := by
  unfold applyGuess
  split_ifs <;> rfl

theorem applyGuess_timer_mono (ctx : GameCtx) (st : GameState) (g : Word) :
    st.timer ≤ (applyGuess ctx st g).1.timer := by
  unfold applyGuess
  split_ifs <;> simp

theorem applyEvent_gameOver (ctx : GameCtx) (st : GameState) (ev : GEvent) :
    (applyEvent ctx st ev).gameOver = st.gameOver := by
  cases ev with
  | guess g => exact applyGuess_gameOver ctx st g
  | shuffle newOrder =>
    simp only [applyEvent]
    split_ifs <;> rfl

theorem applyEvent_timer_mono (ctx : GameCtx) (st : GameState) (ev : GEvent) :
    st.timer ≤ (applyEvent ctx st ev).timer := by
  cases ev with
  | guess g => exact applyGuess_timer_mono ctx st g
  | shuffle newOrder =>
    simp only [applyEvent]
    split_ifs <;> simp

/-- The timer invariant: never negative, and strictly positive while
the session is active. -/
def TimerInv (st : GameState) : Prop :=
  0 ≤ st.timer ∧ (st.gameOver = false → 0 < st.timer)

theorem timerInv_stepTimer {st : GameState} (h : TimerInv st) (e : Nat) :
    TimerInv (stepTimer st e) := by
  obtain ⟨h0, h1⟩ := h
  unfold stepTimer
  split_ifs with he hg ht
  · exact ⟨h0, h1⟩
  · refine ⟨le_refl 0, ?_⟩
    intro hh
    simp at hh
  · constructor
    · show (0 : Int) ≤ st.timer - ((e / 1000 : Nat) : Int)
      omega
    · intro _
      show (0 : Int) < st.timer - ((e / 1000 : Nat) : Int)
      omega
  · exact ⟨h0, h1⟩

theorem timerInv_applyEvent {ctx : GameCtx} {st : GameState}
    (h : TimerInv st) (ev : GEvent) : TimerInv (applyEvent ctx st ev) := by
  refine ⟨le_trans h.1 (applyEvent_timer_mono ctx st ev), ?_⟩
  intro hg
  rw [applyEvent_gameOver] at hg
  exact lt_of_lt_of_le (h.2 hg) (applyEvent_timer_mono ctx st ev)

theorem timerInv_foldl {ctx : GameCtx} (evs : List GEvent)
    {st : GameState} (h : TimerInv st) :
    TimerInv (evs.foldl (applyEvent ctx) st) := by
  induction evs generalizing st with
  | nil => exact h
  | cons e es ih => exact ih (timerInv_applyEvent h e)

theorem timerInv_completionCheck {ctx : GameCtx} {st : GameState}
    (h : TimerInv st) : TimerInv (completionCheck ctx st) := by
  unfold completionCheck
  split_ifs
  · refine ⟨h.1, ?_⟩
    intro hh
    simp at hh
  · exact h

theorem timerInv_runStep {ctx : GameCtx} {st : GameState}
    (h : TimerInv st) (s : Step) : TimerInv (runStep ctx st s) :=
  timerInv_completionCheck (timerInv_foldl s.events (timerInv_stepTimer h s.elapsedMs))

theorem timerInv_run {ctx : GameCtx} (steps : List Step) {st : GameState}
    (h : TimerInv st) : TimerInv (run ctx st steps) := by
  induction steps generalizing st with
  | nil => exact h
  | cons s rest ih =>
    unfold run
    split_ifs
    · exact h
    · exact ih (timerInv_runStep h s)

theorem timerInv_initState (ctx : GameCtx) (letters : List Char) :
    TimerInv (initState ctx letters) := by
  constructor
  · exact le_trans (by norm_num) (le_max_left 10 _)
  · intro _
    exact lt_of_lt_of_le (by norm_num) (le_max_left 10 _)

/-- Well-formedness of the per-game data as produced by `load_words`
(nonempty dictionary entries) and the solver (no empty possible word). -/
def CtxWf (ctx : GameCtx) : Prop := [] ∉ ctx.valid ∧ [] ∉ ctx.possible

instance (ctx : GameCtx) : Decidable (CtxWf ctx) := by
  unfold CtxWf; infer_instance

/-- The state invariant relating the found and bonus sets to the
possible-word set: found words are possible, bonus words are not. -/
def StInv (ctx : GameCtx) (st : GameState) : Prop :=
  (∀ w ∈ st.found, w ∈ ctx.possible) ∧ (∀ w ∈ st.bonus, w ∉ ctx.possible)

instance (ctx : GameCtx) (st : GameState) : Decidable (StInv ctx st) := by
  unfold StInv; infer_instance

theorem stInv_applyGuess {ctx : GameCtx} {st : GameState}
    (h : StInv ctx st) (g : Word) : StInv ctx (applyGuess ctx st g).1 := by
  obtain ⟨hf, hb⟩ := h
  unfold applyGuess
  split_ifs with h1 h2 h3 h4
  · exact ⟨hf, hb⟩
  · exact ⟨hf, hb⟩
  · refine ⟨hf, ?_⟩
    intro w hw
    rcases List.mem_cons.mp hw with rfl | hw
    · exact h3.2
    · exact hb w hw
  · refine ⟨?_, hb⟩
    intro w hw
    rcases List.mem_cons.mp hw with rfl | hw
    · exact h4.1
    · exact hf w hw
  · exact ⟨hf, hb⟩

theorem stInv_applyEvent {ctx : GameCtx} {st : GameState}
    (h : StInv ctx st) (ev : GEvent) : StInv ctx (applyEvent ctx st ev) := by
  cases ev with
  | guess g => exact stInv_applyGuess h g
  | shuffle newOrder =>
    simp only [applyEvent]
    split_ifs
    · exact h
    · exact h

theorem stInv_foldl {ctx : GameCtx} (evs : List GEvent) {st : GameState}
    (h : StInv ctx st) : StInv ctx (evs.foldl (applyEvent ctx) st) := by
  induction evs generalizing st with
  | nil => exact h
  | cons e es ih => exact ih (stInv_applyEvent h e)

theorem stInv_runStep {ctx : GameCtx} {st : GameState}
    (h : StInv ctx st) (s : Step) : StInv ctx (runStep ctx st s) := by
  have h1 : StInv ctx (stepTimer st s.elapsedMs) := by
    unfold stepTimer
    split_ifs <;> exact h
  have h2 := stInv_foldl s.events h1
  unfold runStep completionCheck
  split_ifs <;> exact h2

theorem stInv_run {ctx : GameCtx} (steps : List Step) {st : GameState}
    (h : StInv ctx st) : StInv ctx (run ctx st steps) := by
  induction steps generalizing st with
  | nil => exact h
  | cons s rest ih =>
    unfold run
    split_ifs
    · exact h
    · exact ih (stInv_runStep h s)

theorem stInv_initState (ctx : GameCtx) (letters : List Char) :
    StInv ctx (initState ctx letters) := by
  exact ⟨fun w hw => absurd hw (List.not_mem_nil w),
    fun w hw => absurd hw (List.not_mem_nil w)⟩

theorem status_ne_active_iff {ctx : GameCtx} {st : GameState} :
    status ctx st ≠ Status.Active ↔ st.gameOver = true := by
  unfold status
  split_ifs with h1 h2 <;> simp [h1]

/-- Shared core of the completion check: when every possible word is
found, the check awards +100, ends the game, and the resulting status
is Complete (whatever the timer or the game-over flag already say). -/
theorem completionCheck_fires {ctx : GameCtx} {st : GameState}
    (h : ∀ w ∈ ctx.possible, w ∈ st.found) :
    completionCheck ctx st =
      { st with score := st.score + 100, gameOver := true } ∧
    status ctx (completionCheck ctx st) = Status.Complete := by
  have hall : allFound ctx st = true := allFound_iff.mpr h
  have h1 : completionCheck ctx st =
      { st with score := st.score + 100, gameOver := true } := by
    unfold completionCheck
    rw [if_pos hall]
  refine ⟨h1, ?_⟩
  rw [h1]
  unfold status
  have hall2 :
      allFound ctx { st with score := st.score + 100, gameOver := true } =
        true := hall
  rw [if_pos rfl, if_pos hall2]

/-! ## Further concrete states used by claim instances -/

/-- An active state with 5 seconds left, for the large-gap tick example. -/
def ex4State : GameState :=
  { found := [], bonus := [], score := 0, timer := 5, gameOver := false,
    buttons := lettersA }

/-- A terminal (expired) state of scenario A. -/
def stTerm : GameState :=
  { found := [], bonus := [], score := 0, timer := 0, gameOver := true,
    buttons := lettersA }

/-- Scenario A with two of three words found and 5 seconds left. -/
def st10 : GameState :=
  { found := [ateW, eatW], bonus := [], score := 60, timer := 5,
    gameOver := false, buttons := lettersA }

/-- Scenario A with all three possible words found. -/
def stDone : GameState :=
  { found := [teaW, ateW, eatW], bonus := [], score := 90, timer := 39,
    gameOver := false, buttons := lettersA }

/-! ## Claims -/

/-- C1: for every dictionary `D`, letter list `L` and seed `s`, the
solver `get_possible_words L D s` returns exactly the set of
dictionary words of length between 3 and `len L` whose letter multiset
is contained in that of `L`, united with the seed, as a duplicate-free
list sorted ascending by (length, lexicographic); and on scenario A
(seed eat, letters e a t, dictionary eat ate tea tan) it returns
[ate, eat, tea]. -/
theorem c1_solver_characterization (letters : List Char) (D : List Word)
    (s : Word) :
    (∀ w : Word, w ∈ get_possible_words letters D s ↔
        (w ∈ D ∧ 3 ≤ w.length ∧ w.length ≤ letters.length ∧
          msubset w letters) ∨ w = s) ∧
    (get_possible_words letters D s).Nodup ∧
    (get_possible_words letters D s).Sorted keyLe ∧
    get_possible_words lettersA dictA eatW = [ateW, eatW, teaW] :=
  ⟨fun _ => mem_get_possible_words, get_possible_words_nodup letters D s,
    get_possible_words_sorted letters D s, by decide⟩

/-- C2: in an active, well-formed session, a guess that is a possible
word not yet found is added to the found set with score +10·len and
timer +2·len (Correct), and a dictionary word outside the possible set
not yet claimed is added to the bonus set with score +5·len and timer
+len (Bonus); concretely, in scenario A the guess eat yields Correct
with score 30 and timer 27 → 33 (+6 seconds). -/
theorem c2_guess_scoring :
    (∀ (ctx : GameCtx) (st : GameState) (g : Word),
      CtxWf ctx → StInv ctx st → st.gameOver = false →
      (g ∈ ctx.possible → g ∉ st.found →
        applyGuess ctx st g =
          ({ st with found := g :: st.found,
                     score := st.score + 10 * g.length,
                     timer := st.timer + 2 * (g.length : Int) },
            Classification.Correct)) ∧
      (g ∈ ctx.valid → g ∉ ctx.possible → g ∉ st.bonus →
        applyGuess ctx st g =
          ({ st with bonus := g :: st.bonus,
                     score := st.score + 5 * g.length,
                     timer := st.timer + (g.length : Int) },
            Classification.Bonus))) ∧
    applyGuess ctxA sessionA eatW =
      ({ sessionA with found := [eatW], score := 30, timer := 33 },
        Classification.Correct) ∧
    sessionA.timer = 27 := by
  refine ⟨?_, by decide, by decide⟩
  intro ctx st g hwf hinv _
  constructor
  · intro hposs hnf
    have hne : g ≠ [] := fun h => hwf.2 (h ▸ hposs)
    have hnb : g ∉ st.bonus := fun h => hinv.2 g h hposs
    unfold applyGuess
    rw [if_neg hne, if_neg (by tauto), if_neg (by tauto),
      if_pos ⟨hposs, hnf⟩]
  · intro hval hnposs hnb
    have hne : g ≠ [] := fun h => hwf.1 (h ▸ hval)
    have hnf : g ∉ st.found := fun h => hnposs (hinv.1 g h)
    unfold applyGuess
    rw [if_neg hne, if_neg (by tauto), if_pos ⟨hval, hnposs⟩]

theorem c2_guess_scoring_witness :
    applyGuess ctxA sessionA ateW =
      ({ sessionA with found := ateW :: sessionA.found,
                       score := sessionA.score + 10 * ateW.length,
                       timer := sessionA.timer + 2 * (ateW.length : Int) },
        Classification.Correct) :=
  (c2_guess_scoring.1 ctxA sessionA ateW (by decide) (by decide) rfl).1
    (by decide) (by decide)

/-- C3: whenever the found set covers all possible words, the
completion check awards exactly +100, ends the game, and the status is
Complete, regardless of remaining time and taking precedence over an
expiry already recorded in the same step; in scenario A, guessing eat,
ate and tea ends the session Complete with score 30+30+30+100 = 190. -/
theorem c3_completion_bonus :
    (∀ (ctx : GameCtx) (st : GameState),
      (∀ w ∈ ctx.possible, w ∈ st.found) →
      completionCheck ctx st =
        { st with score := st.score + 100, gameOver := true } ∧
      status ctx (completionCheck ctx st) = Status.Complete) ∧
    (run ctxA sessionA
        [⟨0, [.guess eatW, .guess ateW, .guess teaW]⟩]).score = 190 ∧
    status ctxA (run ctxA sessionA
        [⟨0, [.guess eatW, .guess ateW, .guess teaW]⟩]) = Status.Complete :=
  ⟨fun _ _ h => completionCheck_fires h, by decide, by decide⟩

theorem c3_completion_bonus_witness :
    completionCheck ctxA stDone =
      { stDone with score := stDone.score + 100, gameOver := true } ∧
    status ctxA (completionCheck ctxA stDone) = Status.Complete :=
  c3_completion_bonus.1 ctxA stDone (by decide)

/-- C4: on an active session, a tick of e whole seconds sets the timer
to max(0, timer − e) and reaching 0 ends the game in that same step;
the timer is never negative in any state reachable from a fresh
session, and is strictly positive while active; a 15-second gap with 5
seconds left immediately yields Expired. -/
theorem c4_tick_clamps :
    (∀ (st : GameState) (e : Nat), st.gameOver = false → 0 < st.timer →
      (stepTimer st (e * 1000)).timer = max 0 (st.timer - e) ∧
      ((stepTimer st (e * 1000)).timer = 0 →
        (stepTimer st (e * 1000)).gameOver = true)) ∧
    (∀ (ctx : GameCtx) (letters : List Char) (steps : List Step),
      0 ≤ (run ctx (initState ctx letters) steps).timer ∧
      ((run ctx (initState ctx letters) steps).gameOver = false →
        0 < (run ctx (initState ctx letters) steps).timer)) ∧
    (stepTimer ex4State 15000 = { ex4State with timer := 0, gameOver := true } ∧
      status ctxA (stepTimer ex4State 15000) = Status.Expired) := by
  refine ⟨?_, ?_, by decide, by decide⟩
  · intro st e hactive htimer
    unfold stepTimer
    rcases Nat.eq_zero_or_pos e with rfl | he
    · rw [if_neg (by omega)]
      constructor
      · rw [Nat.cast_zero, sub_zero]
        exact (max_eq_right (le_of_lt htimer)).symm
      · intro h0
        exact absurd h0 (by omega)
    · rw [if_pos (by omega), if_neg (by simp [hactive]),
        Nat.mul_div_cancel e (by norm_num)]
      by_cases ht : st.timer - (e : Int) ≤ 0
      · rw [if_pos ht]
        exact ⟨(max_eq_left ht).symm, fun _ => rfl⟩
      · rw [if_neg ht]
        constructor
        · show st.timer - (e : Int) = max 0 (st.timer - (e : Int))
          exact (max_eq_right (by omega)).symm
        · intro h0
          exact absurd (show st.timer - (e : Int) = 0 from h0) (by omega)
  · intro ctx letters steps
    have h := @timerInv_run ctx steps (initState ctx letters)
      (timerInv_initState ctx letters)
    exact ⟨h.1, h.2⟩

theorem c4_tick_clamps_witness :
    (stepTimer ex4State 15000).timer = max 0 (ex4State.timer - 15) :=
  (c4_tick_clamps.1 ex4State 15 rfl (by decide)).1

/-- C5: the guess classification is exactly the precedence Empty,
AlreadyFound, Correct, Bonus, Invalid — the five outcomes are
characterized by mutually exclusive and exhaustive conditions
independent of the evaluation order of the source's branches — and the
non-accepting outcomes (Empty, AlreadyFound, Invalid) leave the state
unchanged. -/
theorem c5_classification (ctx : GameCtx) (st : GameState) (g : Word) :
    ((applyGuess ctx st g).2 = Classification.Empty ↔ g = []) ∧
    ((applyGuess ctx st g).2 = Classification.AlreadyFound ↔
      g ≠ [] ∧ (g ∈ st.found ∨ g ∈ st.bonus)) ∧
    ((applyGuess ctx st g).2 = Classification.Correct ↔
      g ≠ [] ∧ g ∉ st.found ∧ g ∉ st.bonus ∧ g ∈ ctx.possible) ∧
    ((applyGuess ctx st g).2 = Classification.Bonus ↔
      g ≠ [] ∧ g ∉ st.found ∧ g ∉ st.bonus ∧ g ∉ ctx.possible ∧
        g ∈ ctx.valid) ∧
    ((applyGuess ctx st g).2 = Classification.Invalid ↔
      g ≠ [] ∧ g ∉ st.found ∧ g ∉ st.bonus ∧ g ∉ ctx.possible ∧
        g ∉ ctx.valid) ∧
    ((applyGuess ctx st g).2 = Classification.Empty ∨
        (applyGuess ctx st g).2 = Classification.AlreadyFound ∨
        (applyGuess ctx st g).2 = Classification.Invalid →
      (applyGuess ctx st g).1 = st) := by
  unfold applyGuess
  split_ifs with h1 h2 h3 h4 <;>
    refine ⟨?_, ?_, ?_, ?_, ?_, ?_⟩ <;> simp_all <;> tauto

theorem c5_classification_witness :
    (applyGuess ctxA sessionA []).1 = sessionA :=
  (c5_classification ctxA sessionA []).2.2.2.2.2 (Or.inl (by decide))

/-- C6: as stated — closure for every dictionary, letter list and seed
— the claim fails, because the seed is added unconditionally: with an
empty dictionary and the two-letter seed xy, the result contains xy,
which is not in the dictionary and is shorter than 3.  This theorem is
the concrete refutation. -/
theorem c6_closure_cex :
    ¬ (∀ w ∈ get_possible_words ['a', 'b', 'c'] ([] : List Word) ['x', 'y'],
        w ∈ ([] : List Word) ∧ 3 ≤ w.length ∧
          w.length ≤ (['a', 'b', 'c'] : List Char).length ∧
          msubset w ['a', 'b', 'c']) := by decide

/-- C6 (amended): provided the seed itself is a dictionary word of
length between 3 and `len letters` whose letters are drawn from the
letter multiset, every element of the solver output is in the
dictionary, has length in [3, len letters], and has letter multiset
contained in the letters. -/
theorem c6_closure_amended (letters : List Char) (D : List Word) (s : Word)
    (hs : s ∈ D) (h3 : 3 ≤ s.length) (hle : s.length ≤ letters.length)
    (hsub : msubset s letters) :
    ∀ w ∈ get_possible_words letters D s,
      w ∈ D ∧ 3 ≤ w.length ∧ w.length ≤ letters.length ∧
        msubset w letters := by
  intro w hw
  rcases mem_get_possible_words.mp hw with h | rfl
  · exact h
  · exact ⟨hs, h3, hle, hsub⟩

theorem c6_closure_amended_witness :
    ateW ∈ dictA ∧ 3 ≤ ateW.length ∧ ateW.length ≤ lettersA.length ∧
      msubset ateW lettersA :=
  c6_closure_amended lettersA dictA eatW (by decide) (by decide) (by decide)
    (by decide) ateW (by decide)

/-- C7: terminal states are absorbing — once the session status is not
Active at an iteration boundary, the main loop processes no further
step, so no subsequent Guess, Shuffle or Tick changes any state
component or the status (in particular there is no transition between
Complete and Expired). -/
theorem c7_terminal_absorbing (ctx : GameCtx) (st : GameState)
    (steps : List Step) (h : status ctx st ≠ Status.Active) :
    run ctx st steps = st ∧
    status ctx (run ctx st steps) = status ctx st := by
  have hg : st.gameOver = true := status_ne_active_iff.mp h
  have hrun : run ctx st steps = st := by
    cases steps with
    | nil => rfl
    | cons s rest =>
      unfold run
      rw [if_pos (Or.inl hg)]
  exact ⟨hrun, by rw [hrun]⟩

theorem c7_terminal_absorbing_witness :
    run ctxA stTerm [⟨2000, [.guess eatW]⟩] = stTerm ∧
    status ctxA (run ctxA stTerm [⟨2000, [.guess eatW]⟩]) =
      status ctxA stTerm :=
  c7_terminal_absorbing ctxA stTerm [⟨2000, [.guess eatW]⟩] (by decide)

/-- C8: as stated the claim fails — the code performs no InvalidSeed
validation at all.  Construction from the two-letter seed ab (letters
a b, empty dictionary) silently succeeds, producing the possible-word
list [ab] and a normal active session. -/
theorem c8_invalid_seed_cex :
    get_possible_words ['a', 'b'] ([] : List Word) ['a', 'b'] = [['a', 'b']] ∧
    (initState
        { valid := [],
          possible := get_possible_words ['a', 'b'] [] ['a', 'b'] }
        ['a', 'b']).gameOver = false ∧
    (['a', 'b'] : Word).length < 3 := by decide

/-- C8 (amended): there is no InvalidSeed failure: the solver (and
hence session construction) succeeds on every seed, always including
the seed in the possible-word list; the only construction-time failure
is the missing-candidates RuntimeError, and seeds chosen by the
program always come from the dictionary with exactly the chosen word
length (or the 6-letter fallback). -/
theorem c8_no_seed_validation :
    (∀ (letters : List Char) (D : List Word) (s : Word),
      s ∈ get_possible_words letters D s) ∧
    (∀ (valid : List Word) (wl : Nat) (c : List Word),
      chooseCandidates valid wl = some c →
      ∀ w ∈ c, w ∈ valid ∧ (w.length = wl ∨ w.length = 6)) := by
  constructor
  · intro letters D s
    exact mem_get_possible_words.mpr (Or.inr rfl)
  · intro valid wl c hc w hw
    unfold chooseCandidates at hc
    split_ifs at hc with h1 h2
    · cases Option.some.inj hc
      unfold candidatesOf at hw
      obtain ⟨hmem, hlen⟩ := List.mem_filter.mp hw
      exact ⟨hmem, Or.inl (by simpa using hlen)⟩
    · cases Option.some.inj hc
      unfold candidatesOf at hw
      obtain ⟨hmem, hlen⟩ := List.mem_filter.mp hw
      exact ⟨hmem, Or.inr (by simpa using hlen)⟩

theorem c8_no_seed_validation_witness :
    eatW ∈ dictA ∧ (eatW.length = 3 ∨ eatW.length = 6) :=
  c8_no_seed_validation.2 dictA 3 dictA (by decide) eatW (by decide)

/-- C9: a shuffle command is a no-op on game state: found words, bonus
words, score, timer and the game-over flag (hence the status, and the
context's possible-word set, which no command ever writes) are
unchanged, and the letter buttons are merely permuted. -/
theorem c9_shuffle_noop (ctx : GameCtx) (st : GameState)
    (newOrder : List Char) :
    (applyEvent ctx st (.shuffle newOrder)).found = st.found ∧
    (applyEvent ctx st (.shuffle newOrder)).bonus = st.bonus ∧
    (applyEvent ctx st (.shuffle newOrder)).score = st.score ∧
    (applyEvent ctx st (.shuffle newOrder)).timer = st.timer ∧
    (applyEvent ctx st (.shuffle newOrder)).gameOver = st.gameOver ∧
    (applyEvent ctx st (.shuffle newOrder)).buttons.Perm st.buttons ∧
    status ctx (applyEvent ctx st (.shuffle newOrder)) = status ctx st := by
  simp only [applyEvent]
  split_ifs with h
  · exact ⟨rfl, rfl, rfl, rfl, rfl, h, rfl⟩
  · exact ⟨rfl, rfl, rfl, rfl, rfl, List.Perm.refl _, rfl⟩

/-- C10: the completion check runs at the end of every processing step
after all queued commands, regardless of status: if after the step's
timer update and queued events every possible word is found, the +100
bonus is awarded and the status is Complete — even when the timer
expired at the start of that very step, as the concrete instance
(5 seconds left, 15-second gap, queued guess tea) shows. -/
theorem c10_completion_survives_expiry :
    (∀ (ctx : GameCtx) (st : GameState) (s : Step),
      (∀ w ∈ ctx.possible,
          w ∈ (s.events.foldl (applyEvent ctx)
              (stepTimer st s.elapsedMs)).found) →
      runStep ctx st s =
        { s.events.foldl (applyEvent ctx) (stepTimer st s.elapsedMs) with
            score := (s.events.foldl (applyEvent ctx)
              (stepTimer st s.elapsedMs)).score + 100,
            gameOver := true } ∧
      status ctx (runStep ctx st s) = Status.Complete) ∧
    ((stepTimer st10 15000).gameOver = true ∧
      teaW ∈ (runStep ctxA st10 ⟨15000, [.guess teaW]⟩).found ∧
      (runStep ctxA st10 ⟨15000, [.guess teaW]⟩).score = 190 ∧
      status ctxA (runStep ctxA st10 ⟨15000, [.guess teaW]⟩) =
        Status.Complete) := by
  refine ⟨?_, by decide⟩
  intro ctx st s hall
  exact completionCheck_fires hall

theorem c10_completion_survives_expiry_witness :
    runStep ctxA st10 ⟨15000, [.guess teaW]⟩ =
      { [GEvent.guess teaW].foldl (applyEvent ctxA)
          (stepTimer st10 15000) with
          score := ([GEvent.guess teaW].foldl (applyEvent ctxA)
            (stepTimer st10 15000)).score + 100,
          gameOver := true } :=
  (c10_completion_survives_expiry.1 ctxA st10 ⟨15000, [.guess teaW]⟩
    (by decide)).1

end TextTwist
